import Mathlib

/-!
Verification of src/math/extended_euclid_algorithm.cpp.

The C++ file implements the extended Euclidean algorithm twice over
uint64_t operands, with Bezout coefficients stored in 64-bit registers:

* an iterative variant, extendedEuclid_1, driven by the helper
  update_step, which keeps three pairs (r, r0), (s, s0), (t, t0);
* a recursive variant, extendedEuclid, with base case B = 0.

Both variants begin with: if (B > A) std::swap(A, B).

We model uint64_t values as natural numbers below W = 2 ^ 64, and the
machine arithmetic (which wraps) as arithmetic modulo W.  Subtraction
and multiplication of the coefficient registers are the only spots
where the wraparound matters; the remainder chain r0, r never wraps for
genuine uint64_t inputs.  int64_t output registers hold the same bit
patterns, so a result triple is a triple of naturals below W, and
`toInt64` reinterprets such a bit pattern as the signed value.
-/

namespace math

/-- The modulus of 64-bit machine arithmetic: 2 ^ 64. -/
def W : Nat := 2 ^ 64

theorem W_pos : 0 < W := by decide

instance : NeZero W := ⟨by decide⟩

/-- uint64_t multiplication: the product wraps modulo 2 ^ 64. -/
def umul (a b : Nat) : Nat := a * b % W

/-- uint64_t subtraction: the difference wraps modulo 2 ^ 64. -/
def usub (a b : Nat) : Nat := (a + (W - b % W)) % W

/-- Reinterpret a uint64_t bit pattern as the int64_t it stores. -/
def toInt64 (n : Nat) : Int := if n < 2 ^ 63 then (n : Int) else (n : Int) - (W : Int)

theorem usub_lt (a b : Nat) : usub a b < W := Nat.mod_lt _ W_pos

theorem umul_lt (a b : Nat) : umul a b < W := Nat.mod_lt _ W_pos

/--
update_step from the source: given registers r, r0 and the current
quotient, performs  r = r0 - quotient * r;  r0 = old r  in uint64_t
arithmetic, returning the pair (new r, new r0).
-/
def update_step (r r0 quotient : Nat) : Nat × Nat :=
  (usub r0 (umul quotient r), r)

/--
When the divisor register r is a genuine uint64_t value (r < W), the
wrapped combination r0 - (r0 / r) * r computed by update_step is the
exact Euclidean remainder r0 % r.
-/
theorem loop_step_eq (r r0 : Nat) (hr : 0 < r) (hrW : r < W) :
    usub r0 (umul (r0 / r) r) = r0 % r := by
  have hd : r0 / r * r + r0 % r = r0 := Nat.div_add_mod' r0 r
  have hm : r0 % r < r := Nat.mod_lt _ hr
  simp only [usub, umul, W] at hrW ⊢
  omega

theorem step_lt (r r0 : Nat) (hr : r ≠ 0) : usub r0 (umul (r0 / r) r) < r := by
  rcases Nat.lt_or_ge r W with h | h
  · rw [loop_step_eq r r0 (Nat.pos_of_ne_zero hr) h]
    exact Nat.mod_lt _ (Nat.pos_of_ne_zero hr)
  · exact Nat.lt_of_lt_of_le (usub_lt _ _) h

/--
The while loop of extendedEuclid_1: state (r, r0, s, s0, t, t0); while
r is nonzero, each pair is rewritten by update_step with the quotient
r0 / r; on exit the source reads GCD = r0, x = s0, y = t0.
-/
def eeaLoop (r r0 s s0 t t0 : Nat) : Nat × Nat × Nat :=
  if h : r = 0 then (r0, s0, t0)
  else
    eeaLoop (update_step r r0 (r0 / r)).1 (update_step r r0 (r0 / r)).2
      (update_step s s0 (r0 / r)).1 (update_step s s0 (r0 / r)).2
      (update_step t t0 (r0 / r)).1 (update_step t t0 (r0 / r)).2
termination_by r
decreasing_by
  simp only [update_step]
  exact step_lt r r0 h

/--
The iterative variant.  The initial swap "if (B > A) std::swap(A, B)"
is modelled by choosing the pair p = (A, B) or (B, A); then the loop
starts from r = B, r0 = A, s = 0, s0 = 1, t = 1, t0 = 0.
-/
def extendedEuclid_1 (A B : Nat) : Nat × Nat × Nat :=
  let p := if B > A then (B, A) else (A, B)
  eeaLoop p.2 p.1 0 1 1 0

/--
The recursive variant.  The initial swap is modelled by re-invoking the
function with swapped arguments (the re-invocation takes the other
branch, which is exactly the C++ body run on the swapped registers).
Base case B = 0 yields (A, 1, 0); otherwise the call on (B, A % B)
yields (g, x, y) and the result is (g, y, x - (A / B) * y) in 64-bit
arithmetic.
-/
def extendedEuclid (A B : Nat) : Nat × Nat × Nat :=
  if B > A then extendedEuclid B A
  else if hB : B = 0 then (A, 1, 0)
  else
    (fun q => (q.1, q.2.2, usub q.2.1 (umul (A / B) q.2.2)))
      (extendedEuclid B (A % B))
termination_by (min A B, B)
decreasing_by
  · rw [Nat.min_comm B A]
    exact Prod.Lex.right _ (by omega)
  · exact Prod.Lex.left _ _
      (by have := Nat.mod_lt A (Nat.pos_of_ne_zero hB); omega)

/-! ### Unfolding lemmas -/

theorem eeaLoop_zero (r0 s s0 t t0 : Nat) : eeaLoop 0 r0 s s0 t t0 = (r0, s0, t0) := by
  simp [eeaLoop]

theorem eeaLoop_pos (r r0 s s0 t t0 : Nat) (h : r ≠ 0) :
    eeaLoop r r0 s s0 t t0 =
      eeaLoop (update_step r r0 (r0 / r)).1 (update_step r r0 (r0 / r)).2
        (update_step s s0 (r0 / r)).1 (update_step s s0 (r0 / r)).2
        (update_step t t0 (r0 / r)).1 (update_step t t0 (r0 / r)).2 := by
  rw [eeaLoop]
  simp [h]

theorem extendedEuclid_swap (A B : Nat) (h : B > A) :
    extendedEuclid A B = extendedEuclid B A := by
  rw [extendedEuclid]
  simp [h]

theorem extendedEuclid_zero (A : Nat) : extendedEuclid A 0 = (A, 1, 0) := by
  rw [extendedEuclid]
  simp

theorem extendedEuclid_of_le (A B : Nat) (hba : B ≤ A) (hb : B ≠ 0) :
    extendedEuclid A B =
      ((extendedEuclid B (A % B)).1, (extendedEuclid B (A % B)).2.2,
        usub (extendedEuclid B (A % B)).2.1 (umul (A / B) (extendedEuclid B (A % B)).2.2)) := by
  rw [extendedEuclid]
  simp [Nat.not_lt.mpr hba, hb]

theorem extendedEuclid_comm (A B : Nat) : extendedEuclid A B = extendedEuclid B A := by
  rcases Nat.lt_trichotomy A B with h | h | h
  · exact extendedEuclid_swap A B h
  · rw [h]
  · exact (extendedEuclid_swap B A h).symm

theorem extendedEuclid_1_eq (A B : Nat) :
    extendedEuclid_1 A B = eeaLoop (min A B) (max A B) 0 1 1 0 := by
  unfold extendedEuclid_1
  by_cases h : B > A
  · simp [h, Nat.min_eq_left (Nat.le_of_lt h), Nat.max_eq_right (Nat.le_of_lt h)]
  · simp [h, Nat.min_eq_right (Nat.not_lt.mp h), Nat.max_eq_left (Nat.not_lt.mp h)]

theorem extendedEuclid_1_comm (A B : Nat) : extendedEuclid_1 A B = extendedEuclid_1 B A := by
  rw [extendedEuclid_1_eq, extendedEuclid_1_eq, Nat.min_comm, Nat.max_comm]

/-! ### Casting the wrapped operations into ZMod W -/

theorem castW_umul (a b : Nat) : ((umul a b : Nat) : ZMod W) = (a : ZMod W) * (b : ZMod W) := by
  simp [umul, ZMod.natCast_mod]

theorem castW_usub (a b : Nat) : ((usub a b : Nat) : ZMod W) = (a : ZMod W) - (b : ZMod W) := by
  have hb : b % W ≤ W := Nat.le_of_lt (Nat.mod_lt _ W_pos)
  simp only [usub]
  rw [ZMod.natCast_mod, Nat.cast_add, Nat.cast_sub hb, ZMod.natCast_self, ZMod.natCast_mod]
  ring

theorem castW_inj {a b : Nat} (ha : a < W) (hb : b < W) (h : (a : ZMod W) = (b : ZMod W)) :
    a = b := by
  have hv := congrArg ZMod.val h
  rwa [ZMod.val_cast_of_lt ha, ZMod.val_cast_of_lt hb] at hv

/-! ### Range invariants: all registers stay below 2 ^ 64 -/

theorem eeaLoop_lt (r r0 s s0 t t0 : Nat) :
    r < W → r0 < W → s < W → s0 < W → t < W → t0 < W →
    (eeaLoop r r0 s s0 t t0).1 < W ∧ (eeaLoop r r0 s s0 t t0).2.1 < W ∧
      (eeaLoop r r0 s s0 t t0).2.2 < W := by
  induction r, r0, s, s0, t, t0 using eeaLoop.induct with
  | case1 r0 s s0 t t0 =>
    intro _ h0 _ hs0 _ ht0
    rw [eeaLoop_zero]
    exact ⟨h0, hs0, ht0⟩
  | case2 r r0 s s0 t t0 h ih =>
    intro hr hr0 hs hs0 ht ht0
    rw [eeaLoop_pos r r0 s s0 t t0 h]
    exact ih (by simp [update_step, usub_lt]) (by simpa [update_step] using hr)
      (by simp [update_step, usub_lt]) (by simpa [update_step] using hs)
      (by simp [update_step, usub_lt]) (by simpa [update_step] using ht)

theorem extendedEuclid_lt (A B : Nat) :
    A < W → B < W →
    (extendedEuclid A B).1 < W ∧ (extendedEuclid A B).2.1 < W ∧
      (extendedEuclid A B).2.2 < W := by
  induction A, B using extendedEuclid.induct with
  | case1 A B h ih =>
    intro hA hB
    rw [extendedEuclid_swap A B h]
    exact ih hB hA
  | case2 A h =>
    intro hA _
    rw [extendedEuclid_zero]
    refine ⟨hA, ?_, W_pos⟩
    show (1 : Nat) < W
    decide
  | case3 A B h hB ih =>
    intro hA hBW
    rw [extendedEuclid_of_le A B (Nat.not_lt.mp h) hB]
    have hrec := ih hBW (Nat.lt_trans (Nat.mod_lt A (Nat.pos_of_ne_zero hB)) hBW)
    exact ⟨hrec.1, hrec.2.2, usub_lt _ _⟩

/-! ### The GCD component -/

theorem extendedEuclid_gcd (A B : Nat) : (extendedEuclid A B).1 = Nat.gcd A B := by
  induction A, B using extendedEuclid.induct with
  | case1 A B h ih =>
    rw [extendedEuclid_swap A B h, ih, Nat.gcd_comm]
  | case2 A h =>
    rw [extendedEuclid_zero]
    simp
  | case3 A B h hB ih =>
    rw [extendedEuclid_of_le A B (Nat.not_lt.mp h) hB]
    simp only
    rw [ih, Nat.gcd_comm B (A % B), ← Nat.gcd_rec B A, Nat.gcd_comm B A]

/-! ### Bezout identity modulo 2 ^ 64, against the swapped operands -/

theorem extendedEuclid_bezout (A B : Nat) (hba : B ≤ A) :
    ((extendedEuclid A B).1 : ZMod W)
      = (A : ZMod W) * ((extendedEuclid A B).2.1 : ZMod W)
        + (B : ZMod W) * ((extendedEuclid A B).2.2 : ZMod W) := by
  induction A, B using extendedEuclid.induct with
  | case1 A B h ih => omega
  | case2 A h =>
    rw [extendedEuclid_zero]
    push_cast
    ring
  | case3 A B h hB ih =>
    have hmodlt : A % B < B := Nat.mod_lt A (Nat.pos_of_ne_zero hB)
    have key := congrArg (Nat.cast : Nat → ZMod W) (Nat.div_add_mod A B)
    push_cast at key
    rw [extendedEuclid_of_le A B (Nat.not_lt.mp h) hB]
    simp only
    rw [castW_usub, castW_umul, ih (Nat.le_of_lt hmodlt)]
    linear_combination ((extendedEuclid B (A % B)).2.2 : ZMod W) * key

/--
Loop invariant of the iterative variant: if the register pairs satisfy
r0 = a * s0 + b * t0 and r = a * s + b * t modulo 2 ^ 64, then the
output triple (GCD, x, y) satisfies GCD = a * x + b * y modulo 2 ^ 64.
-/
theorem eeaLoop_bezout (a b r r0 s s0 t t0 : Nat) :
    ((r0 : ZMod W) = (a : ZMod W) * (s0 : ZMod W) + (b : ZMod W) * (t0 : ZMod W)) →
    ((r : ZMod W) = (a : ZMod W) * (s : ZMod W) + (b : ZMod W) * (t : ZMod W)) →
    ((eeaLoop r r0 s s0 t t0).1 : ZMod W)
      = (a : ZMod W) * ((eeaLoop r r0 s s0 t t0).2.1 : ZMod W)
        + (b : ZMod W) * ((eeaLoop r r0 s s0 t t0).2.2 : ZMod W) := by
  induction r, r0, s, s0, t, t0 using eeaLoop.induct with
  | case1 r0 s s0 t t0 =>
    intro h0 _
    rw [eeaLoop_zero]
    exact h0
  | case2 r r0 s s0 t t0 h ih =>
    intro h0 h1
    rw [eeaLoop_pos r r0 s s0 t t0 h]
    apply ih
    · simpa [update_step] using h1
    · simp only [update_step]
      rw [castW_usub, castW_umul, castW_usub, castW_umul, castW_usub, castW_umul, h0, h1]
      ring

/--
Simulation of the iterative loop by the recursive variant: starting
from registers with r below 2 ^ 64 and r at most r0, the loop output
agrees with extendedEuclid r0 r — exactly on the GCD slot, and as the
linear combination with the initial coefficient registers on the two
coefficient slots (modulo 2 ^ 64).
-/
theorem eeaLoop_sim (r r0 s s0 t t0 : Nat) :
    r < W → r ≤ r0 →
    (eeaLoop r r0 s s0 t t0).1 = (extendedEuclid r0 r).1 ∧
    ((eeaLoop r r0 s s0 t t0).2.1 : ZMod W)
      = (s0 : ZMod W) * ((extendedEuclid r0 r).2.1 : ZMod W)
        + (s : ZMod W) * ((extendedEuclid r0 r).2.2 : ZMod W) ∧
    ((eeaLoop r r0 s s0 t t0).2.2 : ZMod W)
      = (t0 : ZMod W) * ((extendedEuclid r0 r).2.1 : ZMod W)
        + (t : ZMod W) * ((extendedEuclid r0 r).2.2 : ZMod W) := by
  induction r, r0, s, s0, t, t0 using eeaLoop.induct with
  | case1 r0 s s0 t t0 =>
    intro _ _
    rw [eeaLoop_zero, extendedEuclid_zero]
    refine ⟨rfl, ?_, ?_⟩ <;> · push_cast; ring
  | case2 r r0 s s0 t t0 h ih =>
    intro hrW hle
    have hstep : (update_step r r0 (r0 / r)).1 = r0 % r := by
      simpa [update_step] using loop_step_eq r r0 (Nat.pos_of_ne_zero h) hrW
    have hmodlt : r0 % r < r := Nat.mod_lt _ (Nat.pos_of_ne_zero h)
    obtain ⟨ih1, ih2, ih3⟩ :=
      ih (by rw [hstep]; exact Nat.lt_trans hmodlt hrW)
        (by rw [hstep]; simpa [update_step] using Nat.le_of_lt hmodlt)
    rw [eeaLoop_pos r r0 s s0 t t0 h]
    simp only [update_step] at ih1 ih2 ih3 ⊢
    rw [loop_step_eq r r0 (Nat.pos_of_ne_zero h) hrW] at ih1 ih2 ih3 ⊢
    rw [extendedEuclid_of_le r0 r hle h]
    simp only
    refine ⟨ih1, ?_, ?_⟩
    · rw [ih2, castW_usub, castW_umul, castW_usub, castW_umul]
      ring
    · rw [ih3, castW_usub, castW_umul, castW_usub, castW_umul]
      ring

/--
Main equivalence: on genuine uint64_t inputs the iterative and
recursive variants return the same triple.
-/
theorem extendedEuclid_1_eq_extendedEuclid (A B : Nat) (hA : A < W) (hB : B < W) :
    extendedEuclid_1 A B = extendedEuclid A B := by
  have hba : min A B ≤ max A B := min_le_max
  have haW : max A B < W := Nat.max_lt.mpr ⟨hA, hB⟩
  have hbW : min A B < W := Nat.lt_of_le_of_lt hba haW
  obtain ⟨h1, h2, h3⟩ := eeaLoop_sim (min A B) (max A B) 0 1 1 0 hbW hba
  have hone : (1 : Nat) < W := by decide
  obtain ⟨hl1, hl2, hl3⟩ :=
    eeaLoop_lt (min A B) (max A B) 0 1 1 0 hbW haW W_pos hone hone W_pos
  obtain ⟨he1, he2, he3⟩ := extendedEuclid_lt (max A B) (min A B) haW hbW
  have hx : (eeaLoop (min A B) (max A B) 0 1 1 0).2.1
      = (extendedEuclid (max A B) (min A B)).2.1 := by
    apply castW_inj hl2 he2
    rw [h2]
    push_cast
    ring
  have hy : (eeaLoop (min A B) (max A B) 0 1 1 0).2.2
      = (extendedEuclid (max A B) (min A B)).2.2 := by
    apply castW_inj hl3 he3
    rw [h3]
    push_cast
    ring
  have hnorm : extendedEuclid A B = extendedEuclid (max A B) (min A B) := by
    rcases Nat.le_total B A with hc | hc
    · rw [Nat.max_eq_left hc, Nat.min_eq_right hc]
    · rw [Nat.max_eq_right hc, Nat.min_eq_left hc, extendedEuclid_comm]
  rw [extendedEuclid_1_eq, hnorm]
  exact Prod.ext h1 (Prod.ext hx hy)

theorem extendedEuclid_norm (A B : Nat) :
    extendedEuclid A B = extendedEuclid (max A B) (min A B) := by
  rcases Nat.le_total B A with hc | hc
  · rw [Nat.max_eq_left hc, Nat.min_eq_right hc]
  · rw [Nat.max_eq_right hc, Nat.min_eq_left hc, extendedEuclid_comm]

/--
Bezout identity of the recursive variant, stated against the swapped
(larger-first) operands, as a congruence of naturals modulo 2 ^ 64.
-/
theorem extendedEuclid_bezout_mod (A B : Nat) :
    (max A B * (extendedEuclid A B).2.1 + min A B * (extendedEuclid A B).2.2) % W
      = (extendedEuclid A B).1 % W := by
  rw [extendedEuclid_norm]
  have h := extendedEuclid_bezout (max A B) (min A B) min_le_max
  refine (ZMod.natCast_eq_natCast_iff' _ _ W).mp ?_
  push_cast
  linear_combination -h

/--
Bezout identity of the iterative variant, stated against the swapped
(larger-first) operands, as a congruence of naturals modulo 2 ^ 64.
-/
theorem extendedEuclid_1_bezout_mod (A B : Nat) :
    (max A B * (extendedEuclid_1 A B).2.1 + min A B * (extendedEuclid_1 A B).2.2) % W
      = (extendedEuclid_1 A B).1 % W := by
  rw [extendedEuclid_1_eq]
  have h := eeaLoop_bezout (max A B) (min A B) (min A B) (max A B) 0 1 1 0
    (by push_cast; ring) (by push_cast; ring)
  refine (ZMod.natCast_eq_natCast_iff' _ _ W).mp ?_
  push_cast
  linear_combination -h

/-! ### Claim theorems -/

/--
C1, counterexample: on input (1, 2) both variants return the triple
(1, 0, 1), and 1 * 0 + 2 * 1 = 2 is not congruent to the GCD 1 modulo
2 ^ 64, so the Bezout identity against the original, unswapped
arguments fails for both functions.
-/
theorem C1_counterexample :
    ¬ ((1 * (extendedEuclid 1 2).2.1 + 2 * (extendedEuclid 1 2).2.2) % W
          = (extendedEuclid 1 2).1 % W ∧
       (1 * (extendedEuclid_1 1 2).2.1 + 2 * (extendedEuclid_1 1 2).2.2) % W
          = (extendedEuclid_1 1 2).1 % W) := by
  have h1 : extendedEuclid 1 2 = (1, 0, 1) := by
    simp [extendedEuclid, usub, umul, W]
  have h2 : extendedEuclid_1 1 2 = (1, 0, 1) := by
    simp [extendedEuclid_1, eeaLoop, update_step, usub, umul, W]
  intro hc
  rw [h1, h2] at hc
  simp [W] at hc

/--
C1 (amended): whenever the caller already supplies the arguments with
A at least B (so that the internal swap is the identity), each of the
two functions returns a triple (GCD, X, Y) with
A * X + B * Y congruent to GCD modulo 2 ^ 64, the equality holding
bit-for-bit under 64-bit wraparound semantics.
-/
theorem C1_bezout_unswapped (A B : Nat) (h : B ≤ A) :
    (A * (extendedEuclid A B).2.1 + B * (extendedEuclid A B).2.2) % W
        = (extendedEuclid A B).1 % W ∧
    (A * (extendedEuclid_1 A B).2.1 + B * (extendedEuclid_1 A B).2.2) % W
        = (extendedEuclid_1 A B).1 % W := by
  have hmax : max A B = A := Nat.max_eq_left h
  have hmin : min A B = B := Nat.min_eq_right h
  constructor
  · have hb := extendedEuclid_bezout_mod A B
    rwa [hmax, hmin] at hb
  · have hb := extendedEuclid_1_bezout_mod A B
    rwa [hmax, hmin] at hb

theorem C1_bezout_unswapped_witness :
    15 ≤ 35 ∧
    ((35 * (extendedEuclid 35 15).2.1 + 15 * (extendedEuclid 35 15).2.2) % W
        = (extendedEuclid 35 15).1 % W ∧
     (35 * (extendedEuclid_1 35 15).2.1 + 15 * (extendedEuclid_1 35 15).2.2) % W
        = (extendedEuclid_1 35 15).1 % W) :=
  ⟨by decide, C1_bezout_unswapped 35 15 (by decide)⟩

/--
C2: for every pair of 64-bit unsigned inputs, the iterative variant
extendedEuclid_1 and the recursive variant extendedEuclid return
identical triples (GCD, X, Y).
-/
theorem C2_variants_agree (A B : Nat) (hA : A < W) (hB : B < W) :
    extendedEuclid_1 A B = extendedEuclid A B :=
  extendedEuclid_1_eq_extendedEuclid A B hA hB

theorem C2_variants_agree_witness :
    240 < W ∧ 46 < W ∧ extendedEuclid_1 240 46 = extendedEuclid 240 46 :=
  ⟨by decide, by decide, C2_variants_agree 240 46 (by decide) (by decide)⟩

/--
C3, counterexample: on input (0, 1) both variants return (1, 1, 0),
not the triple (1, 0, 1) the claim requires: the swap turns the call
(0, B) into (B, 0) and the coefficients are not swapped back.
-/
theorem C3_counterexample :
    extendedEuclid 0 1 ≠ ((1 : Nat), (0 : Nat), (1 : Nat)) ∧
    extendedEuclid_1 0 1 ≠ ((1 : Nat), (0 : Nat), (1 : Nat)) := by
  have h1 : extendedEuclid 0 1 = (1, 1, 0) := by
    simp [extendedEuclid, usub, umul, W]
  have h2 : extendedEuclid_1 0 1 = (1, 1, 0) := by
    simp [extendedEuclid_1, eeaLoop, update_step, usub, umul, W]
  rw [h1, h2]
  decide

/--
C3 (amended): for every 64-bit B, calling either variant with first
argument 0 and second argument B returns the triple (B, 1, 0), that
is GCD = B, X = 1, Y = 0.
-/
theorem C3_zero_first_argument (B : Nat) :
    extendedEuclid 0 B = (B, 1, 0) ∧ extendedEuclid_1 0 B = (B, 1, 0) := by
  constructor
  · rw [extendedEuclid_comm, extendedEuclid_zero]
  · rw [extendedEuclid_1_eq, Nat.min_eq_left (Nat.zero_le B),
      Nat.max_eq_right (Nat.zero_le B), eeaLoop_zero]

/--
C4: for every pair of 64-bit inputs, the GCD output of each variant is
the mathematical greatest common divisor of A and B (which in
particular is 0 on the input (0, 0)).
-/
theorem C4_gcd_correct (A B : Nat) (hA : A < W) (hB : B < W) :
    (extendedEuclid A B).1 = Nat.gcd A B ∧ (extendedEuclid_1 A B).1 = Nat.gcd A B := by
  refine ⟨extendedEuclid_gcd A B, ?_⟩
  rw [extendedEuclid_1_eq_extendedEuclid A B hA hB]
  exact extendedEuclid_gcd A B

theorem C4_gcd_correct_witness :
    240 < W ∧ 46 < W ∧
    ((extendedEuclid 240 46).1 = Nat.gcd 240 46 ∧
      (extendedEuclid_1 240 46).1 = Nat.gcd 240 46) :=
  ⟨by decide, by decide, C4_gcd_correct 240 46 (by decide) (by decide)⟩

/--
C5: for every A (including A = 0), calling either variant with second
argument 0 returns the triple (A, 1, 0); in particular the call on
(0, 0) returns (0, 1, 0), whose GCD slot is 0.
-/
theorem C5_zero_second_argument (A : Nat) :
    extendedEuclid A 0 = (A, 1, 0) ∧ extendedEuclid_1 A 0 = (A, 1, 0) := by
  refine ⟨extendedEuclid_zero A, ?_⟩
  rw [extendedEuclid_1_eq, Nat.min_eq_right (Nat.zero_le A),
    Nat.max_eq_left (Nat.zero_le A), eeaLoop_zero]

/--
C6: for every pair (A, B), the call with (A, B) and the call with
(B, A) yield the same GCD output, for each of the two variants.
-/
theorem C6_gcd_symmetric (A B : Nat) :
    (extendedEuclid A B).1 = (extendedEuclid B A).1 ∧
    (extendedEuclid_1 A B).1 = (extendedEuclid_1 B A).1 :=
  ⟨by rw [extendedEuclid_comm], by rw [extendedEuclid_1_comm]⟩

/--
C7: on (35, 15) each variant returns GCD = 5 with coefficients
satisfying 35 * X + 15 * Y = 5 (as signed 64-bit values), and on
(240, 46) each variant returns GCD = 2 with coefficients satisfying
240 * X + 46 * Y = 2.
-/
theorem C7_concrete_examples :
    ((extendedEuclid 35 15).1 = 5 ∧
      35 * toInt64 (extendedEuclid 35 15).2.1
        + 15 * toInt64 (extendedEuclid 35 15).2.2 = 5) ∧
    ((extendedEuclid_1 35 15).1 = 5 ∧
      35 * toInt64 (extendedEuclid_1 35 15).2.1
        + 15 * toInt64 (extendedEuclid_1 35 15).2.2 = 5) ∧
    ((extendedEuclid 240 46).1 = 2 ∧
      240 * toInt64 (extendedEuclid 240 46).2.1
        + 46 * toInt64 (extendedEuclid 240 46).2.2 = 2) ∧
    ((extendedEuclid_1 240 46).1 = 2 ∧
      240 * toInt64 (extendedEuclid_1 240 46).2.1
        + 46 * toInt64 (extendedEuclid_1 240 46).2.2 = 2) := by
  have h1 : extendedEuclid 35 15 = (5, 1, 18446744073709551614) := by
    simp [extendedEuclid, usub, umul, W]
  have h2 : extendedEuclid_1 35 15 = (5, 1, 18446744073709551614) := by
    simp [extendedEuclid_1, eeaLoop, update_step, usub, umul, W]
  have h3 : extendedEuclid 240 46 = (2, 18446744073709551607, 47) := by
    simp [extendedEuclid, usub, umul, W]
  have h4 : extendedEuclid_1 240 46 = (2, 18446744073709551607, 47) := by
    simp [extendedEuclid_1, eeaLoop, update_step, usub, umul, W]
  rw [h1, h2, h3, h4]
  norm_num [toInt64, W]

/--
C8: both variants are total: for every pair of inputs, including
(0, 0), each returns a complete triple (GCD, X, Y); on (0, 0) both
return (0, 1, 0).
-/
theorem C8_totality (A B : Nat) :
    ((∃ G X Y : Nat, extendedEuclid A B = (G, X, Y)) ∧
      (∃ G X Y : Nat, extendedEuclid_1 A B = (G, X, Y))) ∧
    extendedEuclid 0 0 = (0, 1, 0) ∧ extendedEuclid_1 0 0 = (0, 1, 0) := by
  refine ⟨⟨⟨_, _, _, rfl⟩, ⟨_, _, _, rfl⟩⟩, extendedEuclid_zero 0, ?_⟩
  rw [extendedEuclid_1_eq, Nat.min_self, Nat.max_self, eeaLoop_zero]

/--
C9: for every pair (A, B), the triple returned by each variant
satisfies max(A, B) * X + min(A, B) * Y congruent to GCD modulo
2 ^ 64: the Bezout identity holds against the internally swapped
larger-first operands under 64-bit wraparound arithmetic.
-/
theorem C9_bezout_swapped_operands (A B : Nat) :
    (max A B * (extendedEuclid A B).2.1 + min A B * (extendedEuclid A B).2.2) % W
        = (extendedEuclid A B).1 % W ∧
    (max A B * (extendedEuclid_1 A B).2.1 + min A B * (extendedEuclid_1 A B).2.2) % W
        = (extendedEuclid_1 A B).1 % W :=
  ⟨extendedEuclid_bezout_mod A B, extendedEuclid_1_bezout_mod A B⟩

/--
C10: each variant is fully commutative in its arguments at the level
of the whole returned triple, because both normalize to the
larger-first order before computing.
-/
theorem C10_triple_commutative (A B : Nat) :
    extendedEuclid A B = extendedEuclid B A ∧
    extendedEuclid_1 A B = extendedEuclid_1 B A :=
  ⟨extendedEuclid_comm A B, extendedEuclid_1_comm A B⟩

end math
